import Mathlib

/-!
Shallow embedding of the autotiling core of `src/autotile/src/lib.rs`:
connection filters, rule matching, mesh generation, the color-coded rule
loader, and the padded-atlas builder.  Rust `HashMap`s are embedded as
association lists with distinct keys, panics and load failures as
`Except.error`, and the random rule choice as an explicit seed index.
-/

set_option maxHeartbeats 1000000

namespace Autotile

/-- Observed relationship between a cell and one neighbor
(`enum Connection` in the source). -/
inductive Connection where
  | Empty
  | Same
  | Different
deriving DecidableEq, Repr

/-- Declared constraint a rule places on one neighbor direction
(`enum ConnectionFilter` in the source). -/
inductive ConnectionFilter where
  | Anything
  | Empty
  | NotEmpty
  | Same
  | Different
deriving DecidableEq, Repr

/-- Embedding of `ConnectionFilter::matches` from the source. -/
def ConnectionFilter.matches (f : ConnectionFilter) (c : Connection) : Bool :=
  match f with
  | .NotEmpty => !(match c with | .Empty => true | _ => false)
  | .Empty => (match c with | .Empty => true | _ => false)
  | .Anything => true
  | .Same => (match c with | .Same => true | _ => false)
  | .Different => !(match c with | .Same => true | _ => false)

/-- Relative neighbor offset (`vec2<i32>` in the source). -/
abbrev Offset := Int × Int

/-- Atlas grid coordinate (`vec2<usize>` in the source). -/
abbrev AtlasPos := Nat × Nat

/-- Association-list lookup, embedding `HashMap::get`.  The maps in the
source have distinct keys, so an association list is a faithful model. -/
def alookup {α β : Type} [DecidableEq α] (k : α) : List (α × β) → Option β
  | [] => none
  | (k0, v) :: rest => if k = k0 then some v else alookup k rest

/-- Rust `Option::or`. -/
def optOr {α : Type} (a b : Option α) : Option α :=
  match a with
  | some x => some x
  | none => b

/-- Embedding of `struct Rule`: directional constraints plus the atlas
cell used when they are satisfied. -/
structure Rule where
  connections : List (Offset × ConnectionFilter)
  tilesetPos : AtlasPos
deriving DecidableEq, Repr

/-- Embedding of `struct Tile`: candidate rules plus an optional default
atlas cell. -/
structure Tile where
  rules : List Rule
  default : Option AtlasPos
deriving DecidableEq, Repr

/-- One rule matches a neighbor evaluation: every declared
(offset, filter) pair must accept the evaluated connection
(the closure inside `Tile::tileset_pos`). -/
def Rule.ruleMatches (r : Rule) (f : Offset → Connection) : Bool :=
  r.connections.all fun p => p.2.matches (f p.1)

/-- Embedding of `Tile::tileset_pos`.  The `choose(&mut thread_rng())`
uniform choice among matched rules is embedded by an explicit seed `k`:
the chosen element is `matched[k % matched.length]`, which is `none`
exactly when no rule matches, as with `IteratorRandom::choose`. -/
def Tile.tilesetPos (t : Tile) (k : Nat) (f : Offset → Connection) : Option AtlasPos :=
  let matched := t.rules.filter fun r => r.ruleMatches f
  optOr ((matched[k % matched.length]?).map Rule.tilesetPos) t.default

/-- Embedding of the `TileMap` trait: a finite enumeration of occupied
coordinates and a lookup of the optional tile name at any coordinate. -/
structure TileMap where
  nonEmptyTiles : List Offset
  getAt : Offset → Option String

/-- Embedding of `struct TexturedTile`. -/
structure TexturedTile where
  pos : Offset
  tilesetPos : AtlasPos
deriving DecidableEq, Repr

/-- Embedding of `struct TilesetDef`. -/
structure TilesetDef where
  tileSize : Nat × Nat
  tiles : List (String × Tile)

/-- Componentwise addition of offsets (`pos + delta`). -/
def offsetAdd (a b : Offset) : Offset := (a.1 + b.1, a.2 + b.2)

/-- The neighbor evaluation closure passed to `tileset_pos` inside
`TilesetDef::generate_mesh`: probe the map at `pos + delta`. -/
def connectionAt (m : TileMap) (pos : Offset) (value : String) (delta : Offset) : Connection :=
  match m.getAt (offsetAdd pos delta) with
  | some other => if other = value then .Same else .Different
  | none => .Empty

/-- Recursion over the enumerated occupied coordinates of
`TilesetDef::generate_mesh`.  The `expect` panic on an unknown tile name
is embedded as `Except.error`; cells whose lookup yields no name and
cells whose rule resolution yields no atlas cell are skipped. -/
def generateMeshGo (d : TilesetDef) (m : TileMap) (seed : Offset → Nat) :
    List Offset → Except String (List TexturedTile)
  | [] => .ok []
  | pos :: rest =>
    match m.getAt pos with
    | none => generateMeshGo d m seed rest
    | some value =>
      match alookup value d.tiles with
      | none => .error ("No def for tile type " ++ value)
      | some tile =>
        match tile.tilesetPos (seed pos) (connectionAt m pos value) with
        | none => generateMeshGo d m seed rest
        | some uv =>
          match generateMeshGo d m seed rest with
          | .error e => .error e
          | .ok tail => .ok (⟨pos, uv⟩ :: tail)

/-- Embedding of `TilesetDef::generate_mesh`, fully consumed. -/
def TilesetDef.generateMesh (d : TilesetDef) (m : TileMap) (seed : Offset → Nat) :
    Except String (List TexturedTile) :=
  generateMeshGo d m seed m.nonEmptyTiles

/-- RGBA color with 8-bit channels (`Rgba<u8>` in the source). -/
structure Rgba where
  r : Nat
  g : Nat
  b : Nat
  a : Nat
deriving DecidableEq, Repr

/-- Decoded image: dimensions plus a pixel function
(`image::DynamicImage` restricted to what the loader reads). -/
structure Image where
  width : Nat
  height : Nat
  pixel : Nat → Nat → Rgba

/-- The fixed palette table (`color_rules.json` deserialized into
`HashMap<Rgba<u8>, Option<ConnectionFilter>>`), kept abstract. -/
abbrev ColorRules := List (Rgba × Option ConnectionFilter)

/-- Embedding of `ConnectionFilter::from_color`: the `expect` panic on a
color absent from the table is embedded as `Except.error`. -/
def fromColorE (table : ColorRules) (c : Rgba) : Except String (Option ConnectionFilter) :=
  match alookup c table with
  | none => .error "No rule for color"
  | some v => .ok v

/-- Per-axis sample coordinate inside a cell in `load_rules_from_image`:
-1 samples pixel 0, 0 samples the midpoint, +1 samples the last pixel. -/
def sampleCoord (d : Int) (size : Nat) : Nat :=
  if d = -1 then 0 else if d = 0 then size / 2 else size - 1

/-- The nine loop iterations `for dx in -1..=1 { for dy in -1..=1 }`
of `load_rules_from_image`, in loop order. -/
def offsets : List (Int × Int) :=
  [(-1, -1), (-1, 0), (-1, 1), (0, -1), (0, 0), (0, 1), (1, -1), (1, 0), (1, 1)]

/-- The one pixel of the cell at `(x, y)` read for loop offset `delta`. -/
def samplePixel (ts : Nat × Nat) (img : Image) (x y : Nat) (delta : Int × Int) : Rgba :=
  img.pixel (x + sampleCoord delta.1 ts.1) (y + sampleCoord delta.2 ts.2)

/-- One iteration of the inner sampling loop of `load_rules_from_image`:
skip when alpha is zero, fail when the color is unknown, skip when the
table entry is `None`, otherwise record the filter under the y-inverted
offset `(dx, -dy)`. -/
def decodeStep (table : ColorRules) (ts : Nat × Nat) (img : Image) (x y : Nat)
    (acc : Except String (List (Offset × ConnectionFilter))) (delta : Int × Int) :
    Except String (List (Offset × ConnectionFilter)) :=
  match acc with
  | .error e => .error e
  | .ok conns =>
    let c := samplePixel ts img x y delta
    if c.a = 0 then .ok conns
    else
      match fromColorE table c with
      | .error e => .error e
      | .ok none => .ok conns
      | .ok (some flt) => .ok (conns ++ [((delta.1, -delta.2), flt)])

/-- Decoding of one reference-image cell whose top-left pixel is `(x, y)`:
the full 3×3 sampling loop of `load_rules_from_image`. -/
def decodeCell (table : ColorRules) (ts : Nat × Nat) (img : Image) (x y : Nat) :
    Except String (List (Offset × ConnectionFilter)) :=
  offsets.foldl (decodeStep table ts img x y) (.ok [])

/-- Outcome of one sample, combining the structure of `decodeStep`:
skipped samples yield `none`, recorded ones the filter, unknown colors
an error. -/
def sampleValue (table : ColorRules) (ts : Nat × Nat) (img : Image) (x y : Nat)
    (delta : Int × Int) : Except String (Option ConnectionFilter) :=
  if (samplePixel ts img x y delta).a = 0 then .ok none
  else fromColorE table (samplePixel ts img x y delta)

/-- The connection list accumulated by the sampling loop over `L`, in
loop order, assuming no sample fails. -/
def decodedOf (table : ColorRules) (ts : Nat × Nat) (img : Image) (x y : Nat)
    (L : List (Int × Int)) : List (Offset × ConnectionFilter) :=
  L.filterMap fun delta =>
    match sampleValue table ts img x y delta with
    | .ok (some flt) => some ((delta.1, -delta.2), flt)
    | _ => none

/-- Number of cells along one axis: how many multiples of `step` lie
below `limit`, as produced by `(0..limit).step_by(step)`. -/
def numCells (limit step : Nat) : Nat := (limit + step - 1) / step

/-- One iteration of the per-cell loop of `load_rules_from_image`: a cell
decoding to zero constraints is discarded, otherwise a `Rule` tagged with
the cell's grid index is appended. -/
def loadCell (table : ColorRules) (ts : Nat × Nat) (img : Image)
    (acc : Except String (List Rule)) (ci : Nat × Nat) : Except String (List Rule) :=
  match acc with
  | .error e => .error e
  | .ok rules =>
    match decodeCell table ts img (ci.1 * ts.1) (ci.2 * ts.2) with
    | .error e => .error e
    | .ok conns => if conns.isEmpty then .ok rules else .ok (rules ++ [⟨conns, ci⟩])

/-- The cell indices visited by the two nested `step_by` loops of
`load_rules_from_image` (x outer, y inner). -/
def cellIndices (ts : Nat × Nat) (img : Image) : List (Nat × Nat) :=
  (List.range (numCells img.width ts.1)).flatMap fun xi =>
    (List.range (numCells img.height ts.2)).map fun yi => (xi, yi)

/-- Embedding of `load_rules_from_image` for an already decoded image. -/
def loadRulesFromImage (table : ColorRules) (ts : Nat × Nat) (img : Image) :
    Except String (List Rule) :=
  (cellIndices ts img).foldl (loadCell table ts img) (.ok [])

/-- The `enum Copy { Left, Middle, Right }` of the atlas builder. -/
inductive CopyArea where
  | left
  | middle
  | right
deriving DecidableEq, Repr

/-- Destination offset of an area inside a padded `(tile_size + 2)` cell:
`Left => 0, Middle => 1, Right => tile_size + 1` (the `to` closure). -/
def areaOff (w : Nat) : CopyArea → Nat
  | .left => 0
  | .middle => 1
  | .right => w + 1

/-- Extent of an area along one axis: borders are 1 pixel wide, the
middle spans the whole tile (the `size` closure). -/
def areaSize (w : Nat) : CopyArea → Nat
  | .left => 1
  | .middle => w
  | .right => 1

/-- Source coordinate of a copy along one axis: `tileset_pos * tile_size`
plus `tile_size - 1` for `Right` (the `from` closure). -/
def fromCoord (pos w : Nat) : CopyArea → Nat
  | .left => pos * w
  | .middle => pos * w
  | .right => pos * w + (w - 1)

/-- Destination coordinate of a copy along one axis
(`tileset_pos * (tile_size + 2) + areaOff`, the `to` closure). -/
def toCoord (pos w : Nat) (a : CopyArea) : Nat := pos * (w + 2) + areaOff w a

/-- One invocation of the `copy` closure of the atlas builder, identified
by its arguments. -/
structure CopyOp where
  tilesetPos : AtlasPos
  area : CopyArea × CopyArea
deriving DecidableEq, Repr

/-- Destination rectangle membership of a copy operation. -/
def CopyOp.covers (ts : Nat × Nat) (o : CopyOp) (p : Nat × Nat) : Prop :=
  toCoord o.tilesetPos.1 ts.1 o.area.1 ≤ p.1 ∧
  p.1 < toCoord o.tilesetPos.1 ts.1 o.area.1 + areaSize ts.1 o.area.1 ∧
  toCoord o.tilesetPos.2 ts.2 o.area.2 ≤ p.2 ∧
  p.2 < toCoord o.tilesetPos.2 ts.2 o.area.2 + areaSize ts.2 o.area.2

instance instDecCovers (ts : Nat × Nat) (o : CopyOp) (p : Nat × Nat) :
    Decidable (o.covers ts p) := by
  unfold CopyOp.covers
  exact inferInstance

/-- Value written by a copy operation at a destination pixel: the
source pixel at `from + (p - to)` (semantics of `copy_from`). -/
def valAt (ts : Nat × Nat) (orig : Nat × Nat → Rgba) (o : CopyOp) (p : Nat × Nat) : Rgba :=
  orig (fromCoord o.tilesetPos.1 ts.1 o.area.1 + (p.1 - toCoord o.tilesetPos.1 ts.1 o.area.1),
        fromCoord o.tilesetPos.2 ts.2 o.area.2 + (p.2 - toCoord o.tilesetPos.2 ts.2 o.area.2))

/-- Functional effect of one `copy_from` call on the expanded image. -/
def applyCopy (ts : Nat × Nat) (orig : Nat × Nat → Rgba) (img : Nat × Nat → Rgba)
    (o : CopyOp) : Nat × Nat → Rgba :=
  fun p => if o.covers ts p then valAt ts orig o p else img p

/-- Sequential application of copy operations, in order. -/
def applyCopies (ts : Nat × Nat) (orig : Nat × Nat → Rgba) (img : Nat × Nat → Rgba)
    (ops : List CopyOp) : Nat × Nat → Rgba :=
  ops.foldl (applyCopy ts orig) img

/-- Initial content of `RgbaImage::new`: transparent black everywhere. -/
def zeroImage : Nat × Nat → Rgba := fun _ => ⟨0, 0, 0, 0⟩

/-- Compass component to copy area, as in the atlas builder's
`match x { -1 => Left, 0 => Middle, 1 => Right }`. -/
def areaOfDir (d : Int) : CopyArea :=
  if d = -1 then .left else if d = 0 then .middle else .right

/-- Copy operations issued for one tile by the atlas builder: the
default interior copy if a default is present, then, for every rule and
every loop offset whose declared filter is exactly `Same`, the copy with
areas derived from the y-inverted direction. -/
def Tile.copyOps (t : Tile) : List CopyOp :=
  (match t.default with
   | some dp => [⟨dp, (.middle, .middle)⟩]
   | none => []) ++
  t.rules.flatMap fun r =>
    offsets.filterMap fun dlt =>
      if alookup dlt r.connections = some ConnectionFilter.Same then
        some ⟨r.tilesetPos, (areaOfDir dlt.1, areaOfDir (-dlt.2))⟩
      else none

/-- All copy operations issued while building the padded atlas, in one
iteration order over `def.tiles.values()`. -/
def TilesetDef.buildAtlasOps (d : TilesetDef) : List CopyOp :=
  d.tiles.flatMap fun nt => nt.2.copyOps

/-- The padded atlas produced by applying a given operation list to the
freshly allocated expanded image. -/
def TilesetDef.buildAtlasWith (d : TilesetDef) (orig : Nat × Nat → Rgba)
    (ops : List CopyOp) : Nat × Nat → Rgba :=
  applyCopies d.tileSize orig zeroImage ops

/-- Embedding of the pixel-copy phase of `<Tileset as Load>::load`. -/
def TilesetDef.buildAtlas (d : TilesetDef) (orig : Nat × Nat → Rgba) : Nat × Nat → Rgba :=
  d.buildAtlasWith orig d.buildAtlasOps

/-- Opaque white, the color mapped to `Some(Empty)` in the palette test
of the source. -/
def white : Rgba := ⟨255, 255, 255, 255⟩

/-- A small concrete palette table for concrete evaluations. -/
def tableEx : ColorRules := [(white, some ConnectionFilter.Empty)]

/-- A 1×1 reference image whose only pixel is opaque white. -/
def imgWhite : Image := ⟨1, 1, fun _ _ => white⟩

/-- A 1×1 reference image with an opaque color absent from `tableEx`. -/
def imgRed : Image := ⟨1, 1, fun _ _ => ⟨255, 0, 0, 255⟩⟩

/-- The connections decoded from the single cell of `imgWhite` with
`tableEx`, in loop order. -/
def cWconns : List (Offset × ConnectionFilter) :=
  [((-1, 1), .Empty), ((-1, 0), .Empty), ((-1, -1), .Empty),
   ((0, 1), .Empty), ((0, 0), .Empty), ((0, -1), .Empty),
   ((1, 1), .Empty), ((1, 0), .Empty), ((1, -1), .Empty)]

/-- The single rule loaded from `imgWhite` with `tableEx`. -/
def rW : Rule := ⟨cWconns, (0, 0)⟩

/-- Whether some rule loaded from `imgWhite` with `tableEx` has the zero
offset among its connection keys. -/
def zeroKeyLoaded : Bool :=
  match loadRulesFromImage tableEx (1, 1) imgWhite with
  | .ok rs => rs.any fun r => (alookup ((0 : Int), (0 : Int)) r.connections).isSome
  | .error _ => false

/-- A rule demanding `Same` at the offset to the right. -/
def rC2 : Rule := ⟨[((1, 0), ConnectionFilter.Same)], (2, 3)⟩

/-- A tile with one rule and a default. -/
def tC2 : Tile := ⟨[rC2], some (9, 9)⟩

/-- Neighbor evaluation reporting every neighbor empty. -/
def fEmpty : Offset → Connection := fun _ => .Empty

/-- A tile with no rules and a default, under the name "block". -/
def tileBlock : Tile := ⟨[], some (3, 4)⟩

/-- A tileset definition with the single tile name "block". -/
def dEx : TilesetDef := ⟨(1, 1), [("block", tileBlock)]⟩

/-- An occupancy map whose occupied cell carries a name that `dEx` does
not know. -/
def mBad : TileMap := ⟨[(0, 0)], fun _ => some "ghost"⟩

/-- An occupancy map that enumerates a coordinate but reports no
occupant there. -/
def mGhostOnly : TileMap := ⟨[(5, 5)], fun _ => none⟩

/-- A constant seed. -/
def seedZ : Offset → Nat := fun _ => 0

/-- A tile holding only a default, used for the padding claims. -/
def tileC4 : Tile := ⟨[], some (0, 0)⟩

/-- A one-tile tileset with 1×1 tiles, used for the padding claims. -/
def dC4 : TilesetDef := ⟨(1, 1), [("t", tileC4)]⟩

/-- A constant opaque-white source image. -/
def origWhite : Nat × Nat → Rgba := fun _ => white

/-- A source image whose pixel value records its own coordinates. -/
def origId : Nat × Nat → Rgba := fun p => ⟨p.1, p.2, 7, 255⟩

/-- A rule demanding `Same` to the right, with atlas cell (0,0). -/
def rC5 : Rule := ⟨[((1, 0), ConnectionFilter.Same)], (0, 0)⟩

/-- A tile holding only `rC5`. -/
def tileC5 : Tile := ⟨[rC5], none⟩

/-- A one-tile tileset with 2×2 tiles, used for the border-copy claim. -/
def dC5 : TilesetDef := ⟨(2, 2), [("t", tileC5)]⟩

/-- A rule with `Same` at the right and upper offsets. -/
def rC9 : Rule := ⟨[((1, 0), ConnectionFilter.Same), ((0, 1), ConnectionFilter.Same)], (1, 0)⟩

/-- A tileset with a default and a two-constraint rule, used for the
order-independence claim. -/
def dC9 : TilesetDef := ⟨(2, 2), [("t", ⟨[rC9], some (0, 0)⟩)]⟩

/-- The copy operations of `dC9`, listed in reverse order. -/
def opsRevC9 : List CopyOp := dC9.buildAtlasOps.reverse

/-- C1: `Anything` matches every connection; `Empty` matches exactly
`Empty`; `NotEmpty` matches exactly the non-`Empty` connections; `Same`
matches exactly `Same`; `Different` matches exactly the non-`Same`
connections (so it matches `Empty` and `Different`); and `Different` is
the pointwise boolean negation of `Same`, as `NotEmpty` is of `Empty`. -/
theorem connection_filter_matches_spec :
    ∀ c : Connection,
      ConnectionFilter.Anything.matches c = true ∧
      (ConnectionFilter.Empty.matches c = true ↔ c = Connection.Empty) ∧
      (ConnectionFilter.NotEmpty.matches c = true ↔ c ≠ Connection.Empty) ∧
      (ConnectionFilter.Same.matches c = true ↔ c = Connection.Same) ∧
      (ConnectionFilter.Different.matches c = true ↔ c ≠ Connection.Same) ∧
      ConnectionFilter.Different.matches c = !(ConnectionFilter.Same.matches c) ∧
      ConnectionFilter.NotEmpty.matches c = !(ConnectionFilter.Empty.matches c) := by
  intro c
  cases c <;> decide

/-- C2: a rule matches iff every declared (offset, filter) pair accepts
the evaluated connection; when at least one rule matches, the result is
the atlas cell of one of the matching rules regardless of the declared
default; when no rule matches, the result is the tile's default (hence
`none` when there is no default). -/
theorem tile_resolution_contract (t : Tile) (k : Nat) (f : Offset → Connection) :
    (∀ r : Rule, r.ruleMatches f = true ↔
      ∀ dlt flt, (dlt, flt) ∈ r.connections → flt.matches (f dlt) = true) ∧
    (t.rules.filter (fun r => r.ruleMatches f) ≠ [] →
      ∃ r ∈ t.rules.filter (fun r => r.ruleMatches f),
        ∀ dflt : Option AtlasPos, Tile.tilesetPos ⟨t.rules, dflt⟩ k f = some r.tilesetPos) ∧
    (t.rules.filter (fun r => r.ruleMatches f) = [] →
      t.tilesetPos k f = t.default) := by
  refine ⟨?_, ?_, ?_⟩
  · intro r
    unfold Rule.ruleMatches
    rw [List.all_eq_true]
    constructor
    · intro h dlt flt hm
      exact h (dlt, flt) hm
    · intro h p hp
      exact h p.1 p.2 hp
  · intro hne
    set matched := t.rules.filter (fun r => r.ruleMatches f) with hmdef
    have hpos : 0 < matched.length := List.length_pos.mpr hne
    have hlt : k % matched.length < matched.length := Nat.mod_lt _ hpos
    refine ⟨matched[k % matched.length], List.getElem_mem hlt, ?_⟩
    intro dflt
    unfold Tile.tilesetPos
    have hget : (t.rules.filter (fun r => r.ruleMatches f))[k %
        (t.rules.filter (fun r => r.ruleMatches f)).length]? =
        some matched[k % matched.length] := by
      rw [← hmdef]
      exact List.getElem?_eq_getElem hlt
    simp [hget, optOr]
  · intro hempty
    unfold Tile.tilesetPos
    simp [hempty, optOr]

/-- C2 witness: on a tile whose single rule demands `Same` to the right
while every neighbor evaluates to `Empty`, resolution yields the
declared default. -/
theorem tile_resolution_contract_witness :
    Tile.tilesetPos tC2 0 fEmpty = tC2.default :=
  (tile_resolution_contract tC2 0 fEmpty).2.2 (by decide)

/-- Helper: if some enumerated coordinate carries a name with no entry in
the tile database, consuming the mesh iterator fails. -/
theorem generateMeshGo_error_of_bad (d : TilesetDef) (m : TileMap) (seed : Offset → Nat) :
    ∀ (L : List Offset) (pos : Offset) (value : String), pos ∈ L →
      m.getAt pos = some value → alookup value d.tiles = none →
      ∃ e, generateMeshGo d m seed L = .error e := by
  intro L
  induction L with
  | nil => intro pos value h; exact absurd h (List.not_mem_nil pos)
  | cons p0 rest ih =>
    intro pos value hmem hget hlk
    rcases List.mem_cons.mp hmem with he | hrest
    · subst he
      refine ⟨"No def for tile type " ++ value, ?_⟩
      simp only [generateMeshGo, hget, hlk]
    · obtain ⟨e, he⟩ := ih pos value hrest hget hlk
      cases hg : m.getAt p0 with
      | none =>
        refine ⟨e, ?_⟩
        simp only [generateMeshGo, hg]
        exact he
      | some v0 =>
        cases hl : alookup v0 d.tiles with
        | none =>
          refine ⟨"No def for tile type " ++ v0, ?_⟩
          simp only [generateMeshGo, hg, hl]
        | some tile =>
          cases ht : tile.tilesetPos (seed p0) (connectionAt m p0 v0) with
          | none =>
            refine ⟨e, ?_⟩
            simp only [generateMeshGo, hg, hl, ht]
            exact he
          | some uv =>
            refine ⟨e, ?_⟩
            simp only [generateMeshGo, hg, hl, ht, he]

/-- Helper: every quad produced by the mesh iterator comes from a cell
whose name is known and whose rule resolution yielded its atlas cell. -/
theorem generateMeshGo_ok_sound (d : TilesetDef) (m : TileMap) (seed : Offset → Nat) :
    ∀ (L : List Offset) (l : List TexturedTile), generateMeshGo d m seed L = .ok l →
      ∀ q ∈ l, ∃ value tile, m.getAt q.pos = some value ∧
        alookup value d.tiles = some tile ∧
        tile.tilesetPos (seed q.pos) (connectionAt m q.pos value) = some q.tilesetPos := by
  intro L
  induction L with
  | nil =>
    intro l hok q hq
    simp only [generateMeshGo, Except.ok.injEq] at hok
    subst hok
    exact absurd hq (List.not_mem_nil q)
  | cons p0 rest ih =>
    intro l hok q hq
    cases hg : m.getAt p0 with
    | none =>
      simp only [generateMeshGo, hg] at hok
      exact ih l hok q hq
    | some v0 =>
      cases hl : alookup v0 d.tiles with
      | none =>
        simp only [generateMeshGo, hg, hl] at hok
        exact Except.noConfusion hok
      | some tile =>
        cases ht : tile.tilesetPos (seed p0) (connectionAt m p0 v0) with
        | none =>
          simp only [generateMeshGo, hg, hl, ht] at hok
          exact ih l hok q hq
        | some uv =>
          cases hrest : generateMeshGo d m seed rest with
          | error e =>
            simp only [generateMeshGo, hg, hl, ht, hrest] at hok
            exact Except.noConfusion hok
          | ok tail =>
            simp only [generateMeshGo, hg, hl, ht, hrest, Except.ok.injEq] at hok
            subst hok
            rcases List.mem_cons.mp hq with he | htail
            · subst he
              exact ⟨v0, tile, hg, hl, ht⟩
            · exact ih tail hrest q htail

/-- Helper: when every enumerated coordinate that carries a name carries
a known one, consuming the mesh iterator succeeds. -/
theorem generateMeshGo_ok_total (d : TilesetDef) (m : TileMap) (seed : Offset → Nat) :
    ∀ L : List Offset,
      (∀ p ∈ L, ∀ v, m.getAt p = some v → (alookup v d.tiles).isSome) →
      ∃ l, generateMeshGo d m seed L = .ok l := by
  intro L
  induction L with
  | nil => intro _; exact ⟨[], rfl⟩
  | cons p0 rest ih =>
    intro h
    obtain ⟨tail, htail⟩ := ih fun p hp v hv => h p (List.mem_cons_of_mem p0 hp) v hv
    cases hg : m.getAt p0 with
    | none =>
      refine ⟨tail, ?_⟩
      simp only [generateMeshGo, hg]
      exact htail
    | some v0 =>
      have hsome := h p0 (List.mem_cons_self p0 rest) v0 hg
      cases hl : alookup v0 d.tiles with
      | none => rw [hl] at hsome; exact absurd hsome (by simp)
      | some tile =>
        cases ht : tile.tilesetPos (seed p0) (connectionAt m p0 v0) with
        | none =>
          refine ⟨tail, ?_⟩
          simp only [generateMeshGo, hg, hl, ht]
          exact htail
        | some uv =>
          refine ⟨⟨p0, uv⟩ :: tail, ?_⟩
          simp only [generateMeshGo, hg, hl, ht, htail]

/-- C3: the neighbor evaluation probes the same map at `pos + delta` and
yields `Empty` for no occupant, `Same` for an occupant with the same
name, `Different` otherwise; an enumerated coordinate whose name has no
entry in the tile database makes mesh generation fail hard; a cell whose
rule resolution yields no atlas cell is silently omitted from the
output. -/
theorem mesh_neighbor_and_error_contract (d : TilesetDef) (m : TileMap) (seed : Offset → Nat) :
    (∀ pos value delta,
      (connectionAt m pos value delta = .Empty ↔ m.getAt (offsetAdd pos delta) = none) ∧
      (connectionAt m pos value delta = .Same ↔ m.getAt (offsetAdd pos delta) = some value) ∧
      (connectionAt m pos value delta = .Different ↔
        ∃ other, m.getAt (offsetAdd pos delta) = some other ∧ other ≠ value)) ∧
    (∀ pos value, pos ∈ m.nonEmptyTiles → m.getAt pos = some value →
      alookup value d.tiles = none → ∃ e, d.generateMesh m seed = .error e) ∧
    (∀ pos value tile, m.getAt pos = some value → alookup value d.tiles = some tile →
      tile.tilesetPos (seed pos) (connectionAt m pos value) = none →
      ∀ l, d.generateMesh m seed = .ok l → ∀ q ∈ l, q.pos ≠ pos) := by
  refine ⟨?_, ?_, ?_⟩
  · intro pos value delta
    unfold connectionAt
    cases hg : m.getAt (offsetAdd pos delta) with
    | none => simp
    | some other =>
      by_cases ho : other = value
      · subst ho
        simp
      · simp [ho]
  · intro pos value hmem hget hlk
    exact generateMeshGo_error_of_bad d m seed m.nonEmptyTiles pos value hmem hget hlk
  · intro pos value tile hget hlk ht l hok q hq hqp
    obtain ⟨value2, tile2, hget2, hlk2, ht2⟩ :=
      generateMeshGo_ok_sound d m seed m.nonEmptyTiles l hok q hq
    rw [hqp] at hget2 ht2
    rw [hget] at hget2
    cases hget2
    rw [hlk] at hlk2
    cases hlk2
    rw [ht] at ht2
    exact Option.noConfusion ht2

/-- C3 witness: an occupied cell named "ghost" in a tileset that only
knows "block" makes mesh generation fail. -/
theorem mesh_neighbor_and_error_contract_witness :
    ∃ e, dEx.generateMesh mBad seedZ = .error e :=
  (mesh_neighbor_and_error_contract dEx mBad seedZ).2.1 (0, 0) "ghost" (by decide) rfl rfl

/-- C10: an enumerated coordinate whose map lookup yields no name is
silently skipped: it contributes no quad, and mesh generation still
succeeds whenever every coordinate that does carry a name carries a
known one. -/
theorem mesh_skips_nameless_cells (d : TilesetDef) (m : TileMap) (seed : Offset → Nat)
    (pos : Offset) (hnone : m.getAt pos = none) :
    (∀ l, d.generateMesh m seed = .ok l → ∀ q ∈ l, q.pos ≠ pos) ∧
    ((∀ p ∈ m.nonEmptyTiles, ∀ v, m.getAt p = some v → (alookup v d.tiles).isSome) →
      ∃ l, d.generateMesh m seed = .ok l) := by
  constructor
  · intro l hok q hq hqp
    obtain ⟨value, tile, hget, _, _⟩ :=
      generateMeshGo_ok_sound d m seed m.nonEmptyTiles l hok q hq
    rw [hqp, hnone] at hget
    exact Option.noConfusion hget
  · intro h
    exact generateMeshGo_ok_total d m seed m.nonEmptyTiles h

/-- C10 witness: a map that enumerates (5,5) but reports no occupant
anywhere still yields a successful (empty) mesh. -/
theorem mesh_skips_nameless_cells_witness :
    ∃ l, dEx.generateMesh mGhostOnly seedZ = .ok l :=
  (mesh_skips_nameless_cells dEx mGhostOnly seedZ (5, 5) rfl).2
    (fun _ _ _ hv => Option.noConfusion hv)

/-- Helper: generic congruence for folds whose step functions agree on
the traversed elements. -/
theorem foldl_congr_mem {α β : Type} (f g : β → α → β) :
    ∀ (L : List α) (b : β), (∀ acc a, a ∈ L → f acc a = g acc a) →
      L.foldl f b = L.foldl g b := by
  intro L
  induction L with
  | nil => intro b _; rfl
  | cons a0 rest ih =>
    intro b h
    rw [List.foldl_cons, List.foldl_cons, h b a0 (List.mem_cons_self a0 rest)]
    exact ih (g b a0) fun acc a ha => h acc a (List.mem_cons_of_mem a0 ha)

/-- Helper: one decoding step from a success accumulator, phrased
through `sampleValue`. -/
theorem decodeStep_ok_eq (table : ColorRules) (ts : Nat × Nat) (img : Image) (x y : Nat)
    (conns : List (Offset × ConnectionFilter)) (delta : Int × Int) :
    decodeStep table ts img x y (.ok conns) delta =
      match sampleValue table ts img x y delta with
      | .error e => .error e
      | .ok none => .ok conns
      | .ok (some flt) => .ok (conns ++ [((delta.1, -delta.2), flt)]) := by
  simp only [decodeStep, sampleValue]
  by_cases h : (samplePixel ts img x y delta).a = 0 <;> simp [h]

/-- Helper: the sampling fold propagates failures. -/
theorem decode_foldl_error (table : ColorRules) (ts : Nat × Nat) (img : Image) (x y : Nat) :
    ∀ (L : List (Int × Int)) (e : String),
      L.foldl (decodeStep table ts img x y) (.error e) = .error e := by
  intro L
  induction L with
  | nil => intro e; rfl
  | cons d0 rest ih => intro e; exact ih e

/-- Helper: when no traversed sample fails, the sampling fold appends
exactly the decoded constraints, in order. -/
theorem decode_foldl_ok (table : ColorRules) (ts : Nat × Nat) (img : Image) (x y : Nat) :
    ∀ L : List (Int × Int),
      (∀ d ∈ L, ∀ e, sampleValue table ts img x y d ≠ .error e) →
      ∀ conns0 : List (Offset × ConnectionFilter),
        L.foldl (decodeStep table ts img x y) (.ok conns0) =
          .ok (conns0 ++ decodedOf table ts img x y L) := by
  intro L
  induction L with
  | nil => intro _ conns0; simp [decodedOf]
  | cons d0 rest ih =>
    intro h conns0
    have h0 := h d0 (List.mem_cons_self d0 rest)
    rw [List.foldl_cons, decodeStep_ok_eq]
    cases hs : sampleValue table ts img x y d0 with
    | error e => exact absurd hs (h0 e)
    | ok v =>
      cases v with
      | none =>
        dsimp only
        rw [ih (fun d hd => h d (List.mem_cons_of_mem d0 hd)) conns0]
        congr 1
        simp [decodedOf, List.filterMap_cons, hs]
      | some flt =>
        dsimp only
        rw [ih (fun d hd => h d (List.mem_cons_of_mem d0 hd)) (conns0 ++ [((d0.1, -d0.2), flt)])]
        congr 1
        simp [decodedOf, List.filterMap_cons, hs]

/-- Helper: a failing sample anywhere in the traversal makes the
sampling fold fail. -/
theorem decode_foldl_error_of_sample (table : ColorRules) (ts : Nat × Nat) (img : Image)
    (x y : Nat) :
    ∀ (L : List (Int × Int)) (conns0 : List (Offset × ConnectionFilter)) (d : Int × Int),
      d ∈ L → ∀ e, sampleValue table ts img x y d = .error e →
      ∃ e2, L.foldl (decodeStep table ts img x y) (.ok conns0) = .error e2 := by
  intro L
  induction L with
  | nil => intro _ d hd; exact absurd hd (List.not_mem_nil d)
  | cons d0 rest ih =>
    intro conns0 d hd e hs
    rw [List.foldl_cons, decodeStep_ok_eq]
    rcases List.mem_cons.mp hd with he | hr
    · subst he
      rw [hs]
      dsimp only
      exact ⟨e, decode_foldl_error table ts img x y rest e⟩
    · cases hs0 : sampleValue table ts img x y d0 with
      | error e0 =>
        dsimp only
        exact ⟨e0, decode_foldl_error table ts img x y rest e0⟩
      | ok v =>
        cases v with
        | none => dsimp only; exact ih conns0 d hr e hs
        | some flt => dsimp only; exact ih (conns0 ++ [((d0.1, -d0.2), flt)]) d hr e hs

/-- Helper: a successful cell decoding yields exactly the constraints
decoded sample by sample. -/
theorem decodeCell_ok_eq (table : ColorRules) (ts : Nat × Nat) (img : Image) (x y : Nat)
    (conns : List (Offset × ConnectionFilter))
    (h : decodeCell table ts img x y = .ok conns) :
    conns = decodedOf table ts img x y offsets := by
  by_cases herr : ∀ d ∈ offsets, ∀ e, sampleValue table ts img x y d ≠ .error e
  · have heq := decode_foldl_ok table ts img x y offsets herr []
    unfold decodeCell at h
    rw [heq] at h
    cases h
    simp
  · push_neg at herr
    obtain ⟨d, hd, e, hs⟩ := herr
    obtain ⟨e2, he2⟩ := decode_foldl_error_of_sample table ts img x y offsets [] d hd e hs
    unfold decodeCell at h
    rw [he2] at h
    exact Except.noConfusion h

/-- Helper: a key absent from the traversed samples is absent from the
decoded constraints. -/
theorem alookup_decodedOf_none (table : ColorRules) (ts : Nat × Nat) (img : Image) (x y : Nat) :
    ∀ (L : List (Int × Int)) (k : Offset), (∀ d ∈ L, ((d.1 : Int), -d.2) ≠ k) →
      alookup k (decodedOf table ts img x y L) = none := by
  intro L
  induction L with
  | nil => intro k _; rfl
  | cons d0 rest ih =>
    intro k hk
    simp only [decodedOf, List.filterMap_cons]
    cases hs : sampleValue table ts img x y d0 with
    | error e =>
      dsimp only
      exact ih k fun d hd => hk d (List.mem_cons_of_mem d0 hd)
    | ok v =>
      cases v with
      | none =>
        dsimp only
        exact ih k fun d hd => hk d (List.mem_cons_of_mem d0 hd)
      | some flt =>
        dsimp only
        simp only [alookup]
        rw [if_neg fun hh => hk d0 (List.mem_cons_self d0 rest) hh.symm]
        exact ih k fun d hd => hk d (List.mem_cons_of_mem d0 hd)

/-- Helper: with pairwise distinct keys, looking up the key of a
traversed sample in the decoded constraints recovers exactly that
sample's decoded value. -/
theorem alookup_decodedOf (table : ColorRules) (ts : Nat × Nat) (img : Image) (x y : Nat) :
    ∀ L : List (Int × Int), (L.map fun d => ((d.1 : Int), -d.2)).Nodup →
      ∀ d ∈ L,
        alookup (d.1, -d.2) (decodedOf table ts img x y L) =
          match sampleValue table ts img x y d with
          | .ok (some flt) => some flt
          | _ => none := by
  intro L
  induction L with
  | nil => intro _ d hd; exact absurd hd (List.not_mem_nil d)
  | cons d0 rest ih =>
    intro hnd d hd
    rw [List.map_cons] at hnd
    have hnd0 : ((d0.1 : Int), -d0.2) ∉ rest.map fun d => ((d.1 : Int), -d.2) :=
      (List.nodup_cons.mp hnd).1
    have hndr := (List.nodup_cons.mp hnd).2
    rcases List.mem_cons.mp hd with he | hr
    · subst he
      simp only [decodedOf, List.filterMap_cons]
      cases hs : sampleValue table ts img x y d with
      | error e =>
        dsimp only
        exact alookup_decodedOf_none table ts img x y rest (d.1, -d.2)
          fun d2 hd2 hh => hnd0 (hh ▸ List.mem_map_of_mem _ hd2)
      | ok v =>
        cases v with
        | none =>
          dsimp only
          exact alookup_decodedOf_none table ts img x y rest (d.1, -d.2)
            fun d2 hd2 hh => hnd0 (hh ▸ List.mem_map_of_mem _ hd2)
        | some flt =>
          dsimp only
          simp [alookup]
    · have hkne : ((d.1 : Int), -d.2) ≠ ((d0.1 : Int), -d0.2) :=
        fun hh => hnd0 (hh ▸ List.mem_map_of_mem _ hr)
      simp only [decodedOf, List.filterMap_cons]
      cases hs0 : sampleValue table ts img x y d0 with
      | error e =>
        dsimp only
        exact ih hndr d hr
      | ok v =>
        cases v with
        | none =>
          dsimp only
          exact ih hndr d hr
        | some flt =>
          dsimp only
          simp only [alookup]
          rw [if_neg hkne]
          exact ih hndr d hr

/-- Helper: the keys recorded by the nine loop samples are pairwise
distinct. -/
theorem offsets_keys_nodup : ((offsets.map fun d => ((d.1 : Int), -d.2))).Nodup := by
  decide

/-- Helper: components of the loop offsets and their y-inversions lie
in {-1, 0, 1}. -/
theorem offsets_components :
    ∀ d ∈ offsets, (d.1 = -1 ∨ d.1 = 0 ∨ d.1 = 1) ∧ (-d.2 = -1 ∨ -d.2 = 0 ∨ -d.2 = 1) := by
  decide

/-- Helper: the per-cell fold propagates failures. -/
theorem load_foldl_error (table : ColorRules) (ts : Nat × Nat) (img : Image) :
    ∀ (cis : List (Nat × Nat)) (e : String),
      cis.foldl (loadCell table ts img) (.error e) = .error e := by
  intro cis
  induction cis with
  | nil => intro e; rfl
  | cons ci0 rest ih => intro e; exact ih e

/-- Helper: every rule produced by the per-cell fold either was in the
accumulator already or stems from a traversed cell that decoded
successfully to its nonempty connection list. -/
theorem load_foldl_sound (table : ColorRules) (ts : Nat × Nat) (img : Image) :
    ∀ (cis : List (Nat × Nat)) (rs0 rs : List Rule),
      cis.foldl (loadCell table ts img) (.ok rs0) = .ok rs →
      ∀ r ∈ rs, r ∈ rs0 ∨ ∃ ci ∈ cis, r.tilesetPos = ci ∧
        decodeCell table ts img (ci.1 * ts.1) (ci.2 * ts.2) = .ok r.connections ∧
        r.connections ≠ [] := by
  intro cis
  induction cis with
  | nil =>
    intro rs0 rs h r hr
    cases h
    exact Or.inl hr
  | cons ci0 rest ih =>
    intro rs0 rs h r hr
    rw [List.foldl_cons] at h
    cases hd : decodeCell table ts img (ci0.1 * ts.1) (ci0.2 * ts.2) with
    | error e =>
      rw [show loadCell table ts img (.ok rs0) ci0 = .error e by simp only [loadCell, hd]] at h
      rw [load_foldl_error table ts img rest e] at h
      exact Except.noConfusion h
    | ok conns =>
      have hstep : loadCell table ts img (.ok rs0) ci0 =
          if conns.isEmpty then .ok rs0 else .ok (rs0 ++ [⟨conns, ci0⟩]) := by
        simp only [loadCell, hd]
      by_cases hemp : conns.isEmpty
      · rw [hstep, if_pos hemp] at h
        rcases ih rs0 rs h r hr with h1 | ⟨ci, hci, h2⟩
        · exact Or.inl h1
        · exact Or.inr ⟨ci, List.mem_cons_of_mem _ hci, h2⟩
      · rw [hstep, if_neg hemp] at h
        rcases ih (rs0 ++ [⟨conns, ci0⟩]) rs h r hr with h1 | ⟨ci, hci, h2⟩
        · rcases List.mem_append.mp h1 with h2 | h3
          · exact Or.inl h2
          · have hre : r = ⟨conns, ci0⟩ := by simpa using h3
            subst hre
            refine Or.inr ⟨ci0, List.mem_cons_self _ _, rfl, hd, ?_⟩
            intro hx
            exact hemp (by rw [show conns = [] from hx]; rfl)
        · exact Or.inr ⟨ci, List.mem_cons_of_mem _ hci, h2⟩

/-- C6: in one cell decoding, a zero-alpha sample records no constraint
for its direction; an opaque sample with a color absent from the table
makes decoding fail; a color whose table entry is reserved likewise
records no constraint; and a cell decoding to zero constraints is
discarded without error and contributes no rule. -/
theorem rule_decode_error_contract (table : ColorRules) (ts : Nat × Nat) (img : Image) :
    (∀ x y delta, delta ∈ offsets →
      (samplePixel ts img x y delta).a = 0 →
      ∀ conns, decodeCell table ts img x y = .ok conns →
        alookup (delta.1, -delta.2) conns = none) ∧
    (∀ x y delta, delta ∈ offsets →
      (samplePixel ts img x y delta).a ≠ 0 →
      alookup (samplePixel ts img x y delta) table = none →
      ∃ e, decodeCell table ts img x y = .error e) ∧
    (∀ x y delta, delta ∈ offsets →
      alookup (samplePixel ts img x y delta) table = some none →
      ∀ conns, decodeCell table ts img x y = .ok conns →
        alookup (delta.1, -delta.2) conns = none) ∧
    (∀ rules ci, decodeCell table ts img (ci.1 * ts.1) (ci.2 * ts.2) = .ok [] →
      loadCell table ts img (.ok rules) ci = .ok rules) ∧
    (∀ ci rs, decodeCell table ts img (ci.1 * ts.1) (ci.2 * ts.2) = .ok [] →
      loadRulesFromImage table ts img = .ok rs →
      ∀ r ∈ rs, r.tilesetPos ≠ ci) := by
  refine ⟨?_, ?_, ?_, ?_, ?_⟩
  · intro x y delta hdm ha conns hok
    rw [decodeCell_ok_eq table ts img x y conns hok,
      alookup_decodedOf table ts img x y offsets offsets_keys_nodup delta hdm]
    simp [sampleValue, ha]
  · intro x y delta hdm ha hlk
    have hs : sampleValue table ts img x y delta = .error "No rule for color" := by
      simp [sampleValue, ha, fromColorE, hlk]
    obtain ⟨e2, he2⟩ :=
      decode_foldl_error_of_sample table ts img x y offsets [] delta hdm _ hs
    exact ⟨e2, he2⟩
  · intro x y delta hdm hlk conns hok
    rw [decodeCell_ok_eq table ts img x y conns hok,
      alookup_decodedOf table ts img x y offsets offsets_keys_nodup delta hdm]
    by_cases ha : (samplePixel ts img x y delta).a = 0
    · simp [sampleValue, ha]
    · simp [sampleValue, ha, fromColorE, hlk]
  · intro rules ci hd
    simp [loadCell, hd]
  · intro ci rs hd hld r hr heq
    rcases load_foldl_sound table ts img (cellIndices ts img) [] rs hld r hr with
      h1 | ⟨ci2, _, hpos, hdec, hnemp⟩
    · exact absurd h1 (List.not_mem_nil r)
    · rw [heq] at hpos
      rw [hpos] at hd
      rw [hd] at hdec
      exact hnemp (Except.ok.inj hdec).symm

/-- C6 witness: a 1×1 cell whose opaque color is absent from the table
fails to decode. -/
theorem rule_decode_error_contract_witness :
    ∃ e, decodeCell tableEx (1, 1) imgRed 0 0 = .error e :=
  (rule_decode_error_contract tableEx (1, 1) imgRed).2.1 0 0 (-1, -1)
    (by decide) (by decide) (by decide)

/-- C7: the per-axis sample coordinate is 0 for -1, `size / 2` for 0 and
`size - 1` for +1; the constraint recorded for loop offset `(dx, dy)` is
keyed by the y-inverted offset `(dx, -dy)` and determined by the single
sampled pixel of the cell; and cell decoding depends on nothing but the
nine sampled pixels. -/
theorem rule_decode_sampling_contract (table : ColorRules) (ts : Nat × Nat) (img : Image)
    (x y : Nat) :
    (∀ s : Nat, sampleCoord (-1) s = 0 ∧ sampleCoord 0 s = s / 2 ∧ sampleCoord 1 s = s - 1) ∧
    (∀ delta ∈ offsets, ∀ conns, decodeCell table ts img x y = .ok conns →
      alookup (delta.1, -delta.2) conns =
        match sampleValue table ts img x y delta with
        | .ok (some flt) => some flt
        | _ => none) ∧
    (∀ img2 : Image,
      (∀ delta ∈ offsets, samplePixel ts img2 x y delta = samplePixel ts img x y delta) →
      decodeCell table ts img2 x y = decodeCell table ts img x y) := by
  refine ⟨?_, ?_, ?_⟩
  · intro s
    refine ⟨rfl, ?_, ?_⟩ <;> simp [sampleCoord]
  · intro delta hdm conns hok
    rw [decodeCell_ok_eq table ts img x y conns hok]
    exact alookup_decodedOf table ts img x y offsets offsets_keys_nodup delta hdm
  · intro img2 hpix
    unfold decodeCell
    refine foldl_congr_mem _ _ offsets _ ?_
    intro acc d hd
    cases acc with
    | error e => rfl
    | ok conns => simp only [decodeStep, hpix d hd]

/-- C7 witness: the all-white 1×1 cell records the `Empty` filter under
the y-inverted key (1, -1) for loop offset (1, 1). -/
theorem rule_decode_sampling_contract_witness :
    alookup ((1 : Int), (-1 : Int)) cWconns = some ConnectionFilter.Empty := by
  have h := (rule_decode_sampling_contract tableEx (1, 1) imgWhite 0 0).2.1 (1, 1)
    (by decide) cWconns (by rfl)
  exact h.trans (by rfl)

/-- C8 counterexample: loading the all-white 1×1 reference image with a
table mapping white to a filter yields a rule whose connection keys
include the zero offset, so (0, 0) can be a key. -/
theorem zero_offset_key_loaded : zeroKeyLoaded = true := by rfl

/-- C8 (amended): every connection key of every loaded rule is the
y-inversion of one of the nine loop offsets, hence has both components
in {-1, 0, 1}; the zero offset is among the possible keys. -/
theorem loaded_rule_keys_shape (table : ColorRules) (ts : Nat × Nat) (img : Image)
    (rs : List Rule) (hld : loadRulesFromImage table ts img = .ok rs) :
    ∀ r ∈ rs, ∀ key flt, (key, flt) ∈ r.connections →
      (∃ delta ∈ offsets, key = (delta.1, -delta.2)) ∧
      (key.1 = -1 ∨ key.1 = 0 ∨ key.1 = 1) ∧ (key.2 = -1 ∨ key.2 = 0 ∨ key.2 = 1) := by
  intro r hr key flt hk
  rcases load_foldl_sound table ts img (cellIndices ts img) [] rs hld r hr with
    h1 | ⟨ci, _, _, hdec, _⟩
  · exact absurd h1 (List.not_mem_nil r)
  · rw [decodeCell_ok_eq table ts img _ _ r.connections hdec] at hk
    rw [decodedOf] at hk
    obtain ⟨delta, hdm, hfe⟩ := List.mem_filterMap.mp hk
    cases hs : sampleValue table ts img (ci.1 * ts.1) (ci.2 * ts.2) delta with
    | error e => rw [hs] at hfe; exact absurd hfe (by simp)
    | ok v =>
      cases v with
      | none => rw [hs] at hfe; exact absurd hfe (by simp)
      | some flt2 =>
        rw [hs] at hfe
        have hkey : key = (delta.1, -delta.2) := by
          have := Option.some.inj hfe
          exact (congrArg Prod.fst this).symm
        obtain ⟨hc1, hc2⟩ := offsets_components delta hdm
        subst hkey
        exact ⟨⟨delta, hdm, rfl⟩, hc1, hc2⟩

/-- C8 witness: the key (1, 0) of the rule loaded from the all-white
image is the y-inversion of a loop offset with components in {-1,0,1}. -/
theorem loaded_rule_keys_shape_witness :
    (∃ delta ∈ offsets, ((1 : Int), (0 : Int)) = (delta.1, -delta.2)) ∧
    ((1 : Int) = -1 ∨ (1 : Int) = 0 ∨ (1 : Int) = 1) ∧
    ((0 : Int) = -1 ∨ (0 : Int) = 0 ∨ (0 : Int) = 1) :=
  loaded_rule_keys_shape tableEx (1, 1) imgWhite [rW] (by rfl) rW (by decide)
    (1, 0) ConnectionFilter.Empty (by decide)

/-- Helper: every area's destination slot lies inside its padded cell. -/
theorem slot_bound (w b x : Nat) (a : CopyArea) (h1 : b + areaOff w a ≤ x)
    (h2 : x < b + areaOff w a + areaSize w a) : b ≤ x ∧ x < b + (w + 2) := by
  cases a <;> simp only [areaOff, areaSize] at h1 h2 <;> omega

/-- Helper: a pixel lies in the span of exactly one cell index. -/
theorem cellIndex_unique (W pos pos2 x : Nat) (h1 : pos * W ≤ x) (h2 : x < pos * W + W)
    (h3 : pos2 * W ≤ x) (h4 : x < pos2 * W + W) : pos = pos2 := by
  rcases Nat.lt_trichotomy pos pos2 with hlt | he | hgt
  · exfalso
    have hm : (pos + 1) * W ≤ pos2 * W := Nat.mul_le_mul_right W (Nat.succ_le_of_lt hlt)
    rw [Nat.succ_mul] at hm
    exact absurd h2 (not_lt.mpr (hm.trans h3))
  · exact he
  · exfalso
    have hm : (pos2 + 1) * W ≤ pos * W := Nat.mul_le_mul_right W (Nat.succ_le_of_lt hgt)
    rw [Nat.succ_mul] at hm
    exact absurd h4 (not_lt.mpr (hm.trans h1))

/-- Helper: within one padded cell the three area slots along an axis
are pairwise disjoint. -/
theorem areaSlot_inj (w b x : Nat) (a a2 : CopyArea)
    (h1 : b + areaOff w a ≤ x) (h2 : x < b + areaOff w a + areaSize w a)
    (h3 : b + areaOff w a2 ≤ x) (h4 : x < b + areaOff w a2 + areaSize w a2) : a = a2 := by
  cases a <;> cases a2 <;>
    first
      | rfl
      | (exfalso; simp only [areaOff, areaSize] at h1 h2 h3 h4; omega)

/-- Helper: along one axis, a destination pixel determines both the cell
index and the area of any copy covering it. -/
theorem axis_inj (w pos pos2 x : Nat) (a a2 : CopyArea)
    (h1 : toCoord pos w a ≤ x) (h2 : x < toCoord pos w a + areaSize w a)
    (h3 : toCoord pos2 w a2 ≤ x) (h4 : x < toCoord pos2 w a2 + areaSize w a2) :
    pos = pos2 ∧ a = a2 := by
  simp only [toCoord] at h1 h2 h3 h4
  have hb := slot_bound w (pos * (w + 2)) x a h1 h2
  have hb2 := slot_bound w (pos2 * (w + 2)) x a2 h3 h4
  have hpp : pos = pos2 := cellIndex_unique (w + 2) pos pos2 x hb.1 hb.2 hb2.1 hb2.2
  subst hpp
  exact ⟨rfl, areaSlot_inj w (pos * (w + 2)) x a a2 h1 h2 h3 h4⟩

/-- Helper: two copy operations covering a common destination pixel are
equal, hence write the same source value there. -/
theorem covers_inj (ts : Nat × Nat) (o o2 : CopyOp) (p : Nat × Nat)
    (h : o.covers ts p) (h2 : o2.covers ts p) : o = o2 := by
  obtain ⟨hx1, hx2, hy1, hy2⟩ := h
  obtain ⟨hx1', hx2', hy1', hy2'⟩ := h2
  obtain ⟨hpx, hax⟩ := axis_inj ts.1 _ _ p.1 _ _ hx1 hx2 hx1' hx2'
  obtain ⟨hpy, hay⟩ := axis_inj ts.2 _ _ p.2 _ _ hy1 hy2 hy1' hy2'
  cases o
  cases o2
  simp only [CopyOp.mk.injEq]
  exact ⟨Prod.ext_iff.mpr ⟨hpx, hpy⟩, Prod.ext_iff.mpr ⟨hax, hay⟩⟩

/-- Helper: a pixel covered by no operation keeps its prior content. -/
theorem applyCopies_not_covered (ts : Nat × Nat) (orig : Nat × Nat → Rgba) :
    ∀ (ops : List CopyOp) (img : Nat × Nat → Rgba) (p : Nat × Nat),
      (∀ o ∈ ops, ¬ o.covers ts p) → applyCopies ts orig img ops p = img p := by
  intro ops
  induction ops with
  | nil => intro img p _; rfl
  | cons o0 rest ih =>
    intro img p h
    have hstep : applyCopies ts orig img (o0 :: rest) p =
        applyCopies ts orig (applyCopy ts orig img o0) rest p := rfl
    rw [hstep, ih (applyCopy ts orig img o0) p fun o ho => h o (List.mem_cons_of_mem o0 ho)]
    simp [applyCopy, h o0 (List.mem_cons_self o0 rest)]

/-- Helper: a pixel covered by some operation in the list ends up with
that operation's source value, independently of the order. -/
theorem applyCopies_covered (ts : Nat × Nat) (orig : Nat × Nat → Rgba) :
    ∀ (ops : List CopyOp) (img : Nat × Nat → Rgba) (o : CopyOp) (p : Nat × Nat),
      o ∈ ops → o.covers ts p → applyCopies ts orig img ops p = valAt ts orig o p := by
  intro ops
  induction ops with
  | nil => intro img o p hm; exact absurd hm (List.not_mem_nil o)
  | cons o0 rest ih =>
    intro img o p hm hc
    have hstep : applyCopies ts orig img (o0 :: rest) p =
        applyCopies ts orig (applyCopy ts orig img o0) rest p := rfl
    by_cases hrest : ∃ o2 ∈ rest, o2.covers ts p
    · obtain ⟨o2, hm2, hc2⟩ := hrest
      rw [hstep, ih (applyCopy ts orig img o0) o2 p hm2 hc2, covers_inj ts o o2 p hc hc2]
    · push_neg at hrest
      rw [hstep, applyCopies_not_covered ts orig rest (applyCopy ts orig img o0) p hrest]
      rcases List.mem_cons.mp hm with he | hm2
      · subst he
        simp [applyCopy, hc]
      · exact absurd hc (hrest o hm2)

/-- C9: applying the builder's copy operations in any enumeration order
(same operations as one iteration over tiles and rules) produces the
same padded atlas pixel for pixel, so the expanded image is a
deterministic function of the source image and the rule database. -/
theorem atlas_build_order_independent (d : TilesetDef) (orig : Nat × Nat → Rgba)
    (ops : List CopyOp)
    (hsub : ∀ o ∈ ops, o ∈ d.buildAtlasOps)
    (hsup : ∀ o ∈ d.buildAtlasOps, o ∈ ops)
    (p : Nat × Nat) :
    d.buildAtlasWith orig ops p = d.buildAtlas orig p := by
  unfold TilesetDef.buildAtlas TilesetDef.buildAtlasWith
  by_cases hc : ∃ o ∈ d.buildAtlasOps, o.covers d.tileSize p
  · obtain ⟨o, hm, hcov⟩ := hc
    rw [applyCopies_covered d.tileSize orig ops zeroImage o p (hsup o hm) hcov,
      applyCopies_covered d.tileSize orig d.buildAtlasOps zeroImage o p hm hcov]
  · push_neg at hc
    rw [applyCopies_not_covered d.tileSize orig ops zeroImage p fun o ho => hc o (hsub o ho),
      applyCopies_not_covered d.tileSize orig d.buildAtlasOps zeroImage p hc]

/-- C9 witness: applying `dC9`'s three copy operations in reverse order
yields the same pixel as the builder's order. -/
theorem atlas_build_order_independent_witness :
    dC9.buildAtlasWith origId opsRevC9 (5, 0) = dC9.buildAtlas origId (5, 0) :=
  atlas_build_order_independent dC9 origId opsRevC9 (by decide) (by decide) (5, 0)

/-- C4 counterexample: with a 1×1 tile whose default is cell (0,0) and
an all-white source, the built atlas is transparent black at the border
pixel (0,0) of the default's padded cell although the adjacent interior
pixel (1,1) carries the source color, so the border is not edge-clamped. -/
theorem default_border_not_clamped :
    dC4.buildAtlas origWhite (0, 0) = (⟨0, 0, 0, 0⟩ : Rgba) ∧
    dC4.buildAtlas origWhite (1, 1) = origWhite (0, 0) ∧
    origWhite (0, 0) ≠ (⟨0, 0, 0, 0⟩ : Rgba) := by
  decide

/-- C4 (amended): the `tile_size` interior of the default's padded cell
equals the corresponding source cell pixel for pixel, but the builder
issues no edge-clamp copies for the default: any atlas pixel covered by
no copy operation (in particular an untouched border pixel) keeps the
freshly allocated image's transparent black. -/
theorem default_tile_padding (d : TilesetDef) (orig : Nat × Nat → Rgba) (nm : String)
    (t : Tile) (hm : (nm, t) ∈ d.tiles) (dp : AtlasPos) (hdp : t.default = some dp) :
    (∀ i j, i < d.tileSize.1 → j < d.tileSize.2 →
      d.buildAtlas orig (dp.1 * (d.tileSize.1 + 2) + 1 + i, dp.2 * (d.tileSize.2 + 2) + 1 + j) =
        orig (dp.1 * d.tileSize.1 + i, dp.2 * d.tileSize.2 + j)) ∧
    (∀ p, (∀ o ∈ d.buildAtlasOps, ¬ o.covers d.tileSize p) →
      d.buildAtlas orig p = zeroImage p) := by
  constructor
  · intro i j hi hj
    have hop : (⟨dp, (.middle, .middle)⟩ : CopyOp) ∈ d.buildAtlasOps := by
      unfold TilesetDef.buildAtlasOps
      refine List.mem_flatMap.mpr ⟨(nm, t), hm, ?_⟩
      unfold Tile.copyOps
      rw [hdp]
      exact List.mem_append_left _ (List.mem_singleton.mpr rfl)
    have hcov : (⟨dp, (.middle, .middle)⟩ : CopyOp).covers d.tileSize
        (dp.1 * (d.tileSize.1 + 2) + 1 + i, dp.2 * (d.tileSize.2 + 2) + 1 + j) := by
      refine ⟨?_, ?_, ?_, ?_⟩ <;> simp only [toCoord, areaOff, areaSize] <;> omega
    rw [show d.buildAtlas orig = applyCopies d.tileSize orig zeroImage d.buildAtlasOps from rfl,
      applyCopies_covered d.tileSize orig d.buildAtlasOps zeroImage _ _ hop hcov]
    simp only [valAt, fromCoord, toCoord, areaOff, Nat.add_sub_cancel_left]
  · intro p hnc
    exact applyCopies_not_covered d.tileSize orig d.buildAtlasOps zeroImage p hnc

/-- C4 witness: for the concrete 1×1 default tile, the interior pixel of
the padded cell carries the source pixel. -/
theorem default_tile_padding_witness :
    dC4.buildAtlas origId (1, 1) = origId (0, 0) := by
  have h := (default_tile_padding dC4 origId "t" tileC4 (by decide) (0, 0) rfl).1 0 0
    (by decide) (by decide)
  simpa using h

/-- Helper: a rule constraint that is exactly `Same` at a loop offset
puts the corresponding border copy among the tile's operations. -/
theorem sameOp_mem (t : Tile) (r : Rule) (dx dy : Int) (hr : r ∈ t.rules)
    (hdlt : (dx, dy) ∈ offsets)
    (hSame : alookup (dx, dy) r.connections = some ConnectionFilter.Same) :
    (⟨r.tilesetPos, (areaOfDir dx, areaOfDir (-dy))⟩ : CopyOp) ∈ t.copyOps := by
  unfold Tile.copyOps
  refine List.mem_append_right _ ?_
  refine List.mem_flatMap.mpr ⟨r, hr, ?_⟩
  refine List.mem_filterMap.mpr ⟨(dx, dy), hdlt, ?_⟩
  simp [hSame]

/-- Helper: per-axis placement of a `Same` border copy: the source strip
stays inside the rule's own source cell, sits at the edge facing the
direction, and is 1 pixel wide off-axis and `tile_size` wide on-axis. -/
theorem fromCoord_axis_facts (pos w : Nat) (hw : 0 < w) (e : Int)
    (he : e = -1 ∨ e = 0 ∨ e = 1) (i : Nat) (hi : i < areaSize w (areaOfDir e)) :
    (pos * w ≤ fromCoord pos w (areaOfDir e) + i ∧
      fromCoord pos w (areaOfDir e) + i < pos * w + w) ∧
    (e = 1 → fromCoord pos w (areaOfDir e) + i = pos * w + (w - 1)) ∧
    (e = -1 → fromCoord pos w (areaOfDir e) + i = pos * w) ∧
    (e ≠ 0 → areaSize w (areaOfDir e) = 1) ∧
    (e = 0 → areaSize w (areaOfDir e) = w) := by
  rcases he with he | he | he <;> subst he
  · have hi1 : i < 1 := hi
    have hi0 : i = 0 := by omega
    subst hi0
    refine ⟨⟨Nat.le_add_right _ 0, ?_⟩, ?_, ?_, ?_, ?_⟩
    · show pos * w + 0 < pos * w + w
      omega
    · intro h; exact absurd h (by decide)
    · intro _; rfl
    · intro _; rfl
    · intro h; exact absurd h (by decide)
  · have hiw : i < w := hi
    refine ⟨⟨Nat.le_add_right _ i, ?_⟩, ?_, ?_, ?_, ?_⟩
    · show pos * w + i < pos * w + w
      omega
    · intro h; exact absurd h (by decide)
    · intro h; exact absurd h (by decide)
    · intro h; exact absurd rfl h
    · intro _; rfl
  · have hi1 : i < 1 := hi
    have hi0 : i = 0 := by omega
    subst hi0
    refine ⟨⟨?_, ?_⟩, ?_, ?_, ?_, ?_⟩
    · show pos * w ≤ pos * w + (w - 1) + 0
      omega
    · show pos * w + (w - 1) + 0 < pos * w + w
      omega
    · intro _; rfl
    · intro h; exact absurd h (by decide)
    · intro _; rfl
    · intro h; exact absurd h (by decide)

/-- C5: for every rule whose declared filter at a loop offset is exactly
`Same` (off center), the built atlas carries, throughout the
corresponding border slot of that rule's own padded cell, the pixels of
the same rule's source cell; the source pixels stay inside that cell and
sit at the edge facing the direction, and the slot is a single corner
pixel off both axes, a full `tile_size` strip along the axis of a
cardinal direction. -/
theorem same_rule_border_copy (d : TilesetDef) (orig : Nat × Nat → Rgba) (nm : String)
    (t : Tile) (hm : (nm, t) ∈ d.tiles) (r : Rule) (hr : r ∈ t.rules)
    (dx dy : Int) (hdlt : (dx, dy) ∈ offsets) (_hne : (dx, dy) ≠ ((0 : Int), (0 : Int)))
    (hSame : alookup (dx, dy) r.connections = some ConnectionFilter.Same)
    (hw : 0 < d.tileSize.1) (hh : 0 < d.tileSize.2) (i j : Nat)
    (hi : i < areaSize d.tileSize.1 (areaOfDir dx))
    (hj : j < areaSize d.tileSize.2 (areaOfDir (-dy))) :
    d.buildAtlas orig
        (toCoord r.tilesetPos.1 d.tileSize.1 (areaOfDir dx) + i,
         toCoord r.tilesetPos.2 d.tileSize.2 (areaOfDir (-dy)) + j) =
      orig (fromCoord r.tilesetPos.1 d.tileSize.1 (areaOfDir dx) + i,
            fromCoord r.tilesetPos.2 d.tileSize.2 (areaOfDir (-dy)) + j) ∧
    (r.tilesetPos.1 * d.tileSize.1 ≤
        fromCoord r.tilesetPos.1 d.tileSize.1 (areaOfDir dx) + i ∧
      fromCoord r.tilesetPos.1 d.tileSize.1 (areaOfDir dx) + i <
        r.tilesetPos.1 * d.tileSize.1 + d.tileSize.1) ∧
    (r.tilesetPos.2 * d.tileSize.2 ≤
        fromCoord r.tilesetPos.2 d.tileSize.2 (areaOfDir (-dy)) + j ∧
      fromCoord r.tilesetPos.2 d.tileSize.2 (areaOfDir (-dy)) + j <
        r.tilesetPos.2 * d.tileSize.2 + d.tileSize.2) ∧
    (dx = 1 → fromCoord r.tilesetPos.1 d.tileSize.1 (areaOfDir dx) + i =
      r.tilesetPos.1 * d.tileSize.1 + (d.tileSize.1 - 1)) ∧
    (dx = -1 → fromCoord r.tilesetPos.1 d.tileSize.1 (areaOfDir dx) + i =
      r.tilesetPos.1 * d.tileSize.1) ∧
    (dy = -1 → fromCoord r.tilesetPos.2 d.tileSize.2 (areaOfDir (-dy)) + j =
      r.tilesetPos.2 * d.tileSize.2 + (d.tileSize.2 - 1)) ∧
    (dy = 1 → fromCoord r.tilesetPos.2 d.tileSize.2 (areaOfDir (-dy)) + j =
      r.tilesetPos.2 * d.tileSize.2) ∧
    (dx ≠ 0 → areaSize d.tileSize.1 (areaOfDir dx) = 1) ∧
    (dx = 0 → areaSize d.tileSize.1 (areaOfDir dx) = d.tileSize.1) ∧
    (dy ≠ 0 → areaSize d.tileSize.2 (areaOfDir (-dy)) = 1) ∧
    (dy = 0 → areaSize d.tileSize.2 (areaOfDir (-dy)) = d.tileSize.2) := by
  have hcomp := offsets_components (dx, dy) hdlt
  have hdxc : dx = -1 ∨ dx = 0 ∨ dx = 1 := hcomp.1
  have hdyc : -dy = -1 ∨ -dy = 0 ∨ -dy = 1 := hcomp.2
  have hfx := fromCoord_axis_facts r.tilesetPos.1 d.tileSize.1 hw dx hdxc i hi
  have hfy := fromCoord_axis_facts r.tilesetPos.2 d.tileSize.2 hh (-dy) hdyc j hj
  have hop : (⟨r.tilesetPos, (areaOfDir dx, areaOfDir (-dy))⟩ : CopyOp) ∈ d.buildAtlasOps :=
    List.mem_flatMap.mpr ⟨(nm, t), hm, sameOp_mem t r dx dy hr hdlt hSame⟩
  have hcov : (⟨r.tilesetPos, (areaOfDir dx, areaOfDir (-dy))⟩ : CopyOp).covers d.tileSize
      (toCoord r.tilesetPos.1 d.tileSize.1 (areaOfDir dx) + i,
       toCoord r.tilesetPos.2 d.tileSize.2 (areaOfDir (-dy)) + j) :=
    ⟨Nat.le_add_right _ i, Nat.add_lt_add_left hi _,
     Nat.le_add_right _ j, Nat.add_lt_add_left hj _⟩
  refine ⟨?_, hfx.1, hfy.1, hfx.2.1, hfx.2.2.1, ?_, ?_, hfx.2.2.2.1, hfx.2.2.2.2, ?_, ?_⟩
  · rw [show d.buildAtlas orig = applyCopies d.tileSize orig zeroImage d.buildAtlasOps from rfl,
      applyCopies_covered d.tileSize orig d.buildAtlasOps zeroImage _ _ hop hcov]
    simp only [valAt, Nat.add_sub_cancel_left]
  · intro hdy
    exact hfy.2.1 (by omega)
  · intro hdy
    exact hfy.2.2.1 (by omega)
  · intro hdy
    exact hfy.2.2.2.1 (by omega)
  · intro hdy
    exact hfy.2.2.2.2 (by omega)

/-- C5 witness: in `dC5`, whose single rule demands `Same` to the right,
the right border pixel (3,1) of the rule's padded cell carries the
source pixel (1,0) at the right edge of the rule's source cell. -/
theorem same_rule_border_copy_witness :
    dC5.buildAtlas origId (3, 1) = origId (1, 0) := by
  have h := (same_rule_border_copy dC5 origId "t" tileC5 (by decide) rC5 (by decide)
    1 0 (by decide) (by decide) (by decide) (by decide) (by decide) 0 0
    (by decide) (by decide)).1
  simpa [toCoord, areaOff, areaOfDir, fromCoord] using h

end Autotile
